import Mathlib

/-!
Verification of the dmitigr cpp-lib-str string utilities.

The development shallowly embeds the two source headers:

* src/transform.hpp — the byte-sequence encoder sparsed_string, the in-place
  duplicate-character eliminator eliminate_duplicates, and friends.  Byte
  strings are modelled as List Nat (each element one octet value as read
  through unsigned char), std::string_view arguments that may carry a null
  data pointer are modelled as Option (List Nat) with none standing for a
  view whose data() is the null pointer, and the throwing encoder returns
  Except String (List Nat), the error carrying the what() text of the
  std::invalid_argument the C++ code throws.

* src/time.hpp — the strftime-based formatters to_string_view,
  to_string_view_iso8601 and to_string_view_us.  The strftime call itself
  reads process-global state (the local timezone database), so its output is
  an oracle parameter: each Lean function takes the character data that
  strftime produced (the empty list standing for a failed strftime call,
  which returns 0) and performs exactly the post-processing the C++ code
  performs on the thread-local buffer.  Character data is List Char.
-/

namespace DmitigrStr

/-- One lowercase hexadecimal digit character (as a byte value), as produced
by printf-style %x conversion: 0..9 map to ASCII 48..57, 10..15 map to
ASCII 97..102. -/
def hexDigit (n : Nat) : Nat :=
  if n < 10 then 48 + n else 87 + n

/-- The two bytes written by std::sprintf(res, "%02x", b) for a byte value
b < 256: the two-digit zero-padded lowercase hexadecimal rendering. -/
def sprintf02x (b : Nat) : List Nat :=
  [hexDigit (b / 16), hexDigit (b % 16)]

/-- The single byte written by std::sprintf(res, "%c", b): the byte itself. -/
def sprintfC (b : Nat) : List Nat :=
  [b]

/-- The raw fast-path loop of sparsed_string in src/transform.hpp: for every
element except the last, append the element and then the delimiter; finally
append the last element. -/
def rawInterleave : List Nat → List Nat → List Nat
  | [], _ => []
  | [c], _ => [c]
  | c :: rest, delim => c :: (delim ++ rawInterleave rest delim)

/-- The generic path of sparsed_string in src/transform.hpp: the result
buffer is resized to input.size()*elem_sz + input.size()*delimiter.size();
for each index i the rendering of byte i (through the unsigned char cast,
hence the % 256) is written followed by the delimiter, at consecutive
disjoint offsets; finally the buffer is resized down by delimiter.size(),
dropping the delimiter written after the last element.  The render function
writes exactly elem_sz bytes (the DMITIGR_ASSERT on the sprintf count), so
the packed buffer content is the flattening below. -/
def genericPath (inp delim : List Nat) (render : Nat → List Nat) : List Nat :=
  let full := (inp.map (fun b => render (b % 256) ++ delim)).flatten
  full.take (full.length - delim.length)

/-- dmitigr::str::sparsed_string from src/transform.hpp.

The input view and the delimiter view are Option-wrapped: none models a
std::string_view whose data() is the null pointer.  The format selector is
the underlying integer value of the Byte_format enumerator; Byte_format
itself is declared in basics.hpp, which is not part of the sources at hand,
so the enumerator values are modelled from the spec: the enumeration has
exactly the two variants raw and hex, modelled with the default C++
enumerator values raw = 0 and hex = 1, while the argument type (like the
C++ enum type) can carry other integer values as well.

The body mirrors the C++ control flow: a null or empty input returns the
empty string before anything else is examined; a null delimiter is replaced
by the empty delimiter; format raw takes the fast path (a plain copy when
the delimiter is empty, the interleaving loop otherwise); any other format
goes through the switch of the generic path, whose default falls through to
throw std::invalid_argument. -/
def sparsed_string (input : Option (List Nat)) (result_format : Nat)
    (delimiter : Option (List Nat)) : Except String (List Nat) :=
  match input with
  | none => Except.ok []
  | some inp =>
    if inp = [] then Except.ok []
    else
      let delim := delimiter.getD []
      if result_format = 0 then
        if delim = [] then Except.ok inp
        else Except.ok (rawInterleave inp delim)
      else if result_format = 0 then Except.ok (genericPath inp delim sprintfC)
      else if result_format = 1 then Except.ok (genericPath inp delim sprintf02x)
      else Except.error "unsupported result format for dmitigr::str::to_string(string_view, Byte_format, string_view)"

/-- The length of an encoder result: some length on success, none on error. -/
def resultLength (e : Except String (List Nat)) : Option Nat :=
  match e with
  | Except.ok r => some r.length
  | Except.error _ => none

/-- Byte values of a Lean string literal, for writing expected outputs. -/
def strBytes (s : String) : List Nat :=
  s.data.map Char.toNat

/-- dmitigr::str::to_string_view from src/time.hpp, over the strftime
oracle: the argument is the character data strftime wrote into the
thread-local buffer for the given timepoint and format (strftime returning
0, i.e. failure, is the empty list).  On a non-zero length the function
returns the view over those characters; otherwise it returns the empty
view. -/
def to_string_view (strftime_out : List Char) : List Char :=
  if strftime_out.length ≠ 0 then strftime_out else []

/-- The std::rotate call of to_string_view_iso8601: rotate the range of the
last three characters so that its last element comes first.  The C++ call
has defined behaviour only when the buffer holds at least three characters;
on shorter data the returned view is unchanged (for the empty failure view
the rotated bytes lie wholly outside the returned view). -/
def rotate_last3 (s : List Char) : List Char :=
  if s.length < 3 then s
  else s.take (s.length - 3) ++ (s.drop (s.length - 3)).rotate 2

/-- dmitigr::str::to_string_view_iso8601 from src/time.hpp, over the
strftime oracle for the fixed format string of the call (ISO-8601 with %z
followed by a literal colon): format, then rotate the last three characters
of the buffer. -/
def to_string_view_iso8601 (strftime_out : List Char) : List Char :=
  rotate_last3 (to_string_view strftime_out)

/-- The digits written by std::snprintf %ld for a non-negative value:
worker loop emitting decimal digits most-significant first, carried with
explicit fuel (the first argument) to keep the definition structurally
recursive; fuel n + 1 suffices for the value n because the value shrinks by
a factor of ten every step. -/
def printfLdGo : Nat → Nat → List Char → List Char
  | 0, _, acc => acc
  | fuel + 1, n, acc =>
    if n < 10 then Char.ofNat (48 + n) :: acc
    else printfLdGo fuel (n / 10) (Char.ofNat (48 + n % 10) :: acc)

/-- The character data std::snprintf(_, _, "%ld", n) writes for a
non-negative n: the decimal digits of n, without any padding. -/
def printfLd (n : Nat) : List Char :=
  printfLdGo (n + 1) n []

/-- dmitigr::str::to_string_view_us from src/time.hpp, over the strftime
oracle for the fixed second-precision format of the call, at a timepoint
that lies tse_us microseconds after the epoch (non-negative timepoints; the
duration_cast chain makes the fractional component tse_us % 10^6).  If the
date-time part is non-empty, snprintf appends a dot and the %ld rendering
of the microsecond count; otherwise the empty view is returned. -/
def to_string_view_us (strftime_out : List Char) (tse_us : Nat) : List Char :=
  let result := to_string_view strftime_out
  if result.length ≠ 0 then result ++ '.' :: printfLd (tse_us % 1000000)
  else result

/-- The numeric value a decimal digit string denotes, used to state that
the %ld rendering is faithful. -/
def decodeDec (ds : List Char) : Nat :=
  ds.foldl (fun a c => 10 * a + (c.toNat - 48)) 0

/-- Is the character an ASCII decimal digit. -/
def isDigitChar (c : Char) : Bool :=
  decide (48 ≤ c.toNat) && decide (c.toNat ≤ 57)

/-- One outer-loop pass structure of dmitigr::str::eliminate_duplicates
from src/transform.hpp, on the live prefix of the buffer: at index i (while
i is below the current logical size), every later occurrence of the
character at i is removed (the find plus remove_if, which compacts the
survivors and shrinks the logical size), and the scan moves to i + 1.  The
removed tail cells of the C++ buffer are dead storage, so the buffer is
modelled by its live prefix only.  The fuel argument bounds the number of
iterations; the initial length suffices because the logical size never
grows. -/
def dedupPass : Nat → List Char → Nat → List Char
  | 0, s, _ => s
  | fuel + 1, s, i =>
    if h : i < s.length then
      dedupPass fuel
        (s.take (i + 1) ++ (s.drop (i + 1)).filter (fun c => c ≠ s[i])) (i + 1)
    else s

/-- dmitigr::str::eliminate_duplicates from src/transform.hpp (the
value-level function: the C++ mutates str in place, the model returns the
new value). -/
def eliminate_duplicates (s : List Char) : List Char :=
  dedupPass s.length s 0

/-- Specification-side duplicate elimination, written from the words of the
spec: keep the first occurrence of each character and drop all later
occurrences, preserving the order of the survivors. -/
def dedupFirstSpec : List Char → List Char
  | [] => []
  | c :: rest => c :: dedupFirstSpec (rest.filter (fun x => x ≠ c))
termination_by l => l.length
decreasing_by
  simp only [List.length_cons]
  exact Nat.lt_succ_of_le (List.length_filter_le _ _)

end DmitigrStr

namespace DmitigrStr

theorem rawInterleave_nil_delim (b : List Nat) : rawInterleave b [] = b := by
  induction b with
  | nil => rfl
  | cons c t ih =>
    cases t with
    | nil => rfl
    | cons c2 t2 => simp only [rawInterleave, List.nil_append, List.cons.injEq, true_and]; exact ih

theorem sparsed_string_raw (b d : List Nat) (hb : b ≠ []) :
    sparsed_string (some b) 0 (some d) = Except.ok (rawInterleave b d) := by
  by_cases hd : d = []
  · subst hd
    simp [sparsed_string, hb, rawInterleave_nil_delim]
  · simp [sparsed_string, hb, hd]

theorem sparsed_string_hex (b d : List Nat) (hb : b ≠ []) :
    sparsed_string (some b) 1 (some d) = Except.ok (genericPath b d sprintf02x) := by
  simp [sparsed_string, hb]

theorem rawInterleave_length (d : List Nat) :
    ∀ b : List Nat, b ≠ [] →
      (rawInterleave b d).length = b.length + (b.length - 1) * d.length := by
  intro b
  induction b with
  | nil => intro h; exact absurd rfl h
  | cons c t ih =>
    intro _
    cases t with
    | nil => simp [rawInterleave]
    | cons c2 t2 =>
      have h2 : (c2 :: t2) ≠ [] := by simp
      simp only [rawInterleave, List.length_cons, List.length_append, ih h2,
        Nat.add_sub_cancel]
      ring_nf

theorem rawInterleave_eq_intercalate (d : List Nat) :
    ∀ b : List Nat, rawInterleave b d = List.intercalate d (b.map (fun x => [x])) := by
  intro b
  induction b with
  | nil => simp [rawInterleave, List.intercalate]
  | cons c t ih =>
    cases t with
    | nil => simp [rawInterleave, List.intercalate]
    | cons c2 t2 =>
      simp only [rawInterleave, List.map_cons, List.intercalate,
        List.intersperse_cons_cons, List.flatten_cons] at ih ⊢
      simp [ih]

theorem flatten_render_length (render : Nat → List Nat) (k : Nat)
    (hk : ∀ x, (render x).length = k) (d : List Nat) :
    ∀ inp : List Nat,
      ((inp.map (fun b => render (b % 256) ++ d)).flatten).length
        = inp.length * (k + d.length) := by
  intro inp
  induction inp with
  | nil => simp
  | cons c t ih =>
    simp only [List.map_cons, List.flatten_cons, List.length_append,
      List.length_cons, ih, hk]
    ring_nf

theorem genericPath_length (render : Nat → List Nat) (k : Nat)
    (hk : ∀ x, (render x).length = k) (inp d : List Nat) (h : inp ≠ []) :
    (genericPath inp d render).length
      = inp.length * k + (inp.length - 1) * d.length := by
  obtain ⟨c, t, rfl⟩ := List.exists_cons_of_ne_nil h
  simp only [genericPath, List.length_take,
    flatten_render_length render k hk d (c :: t), List.length_cons]
  have expand : (t.length + 1) * (k + d.length)
      = ((t.length + 1) * k + t.length * d.length) + d.length := by ring
  rw [expand, Nat.add_sub_cancel]
  simp [Nat.min_def]

theorem genericPath_nil_delim (inp : List Nat) (render : Nat → List Nat) :
    genericPath inp [] render = (inp.map (fun b => render (b % 256))).flatten := by
  simp [genericPath]

/-- C4: encoding with format Raw and empty delimiter is the identity on the
byte sequence: the fast path returns a plain copy of the input (and the
empty input returns the empty string). -/
theorem c4_raw_empty_delim_identity (b : List Nat) :
    sparsed_string (some b) 0 (some []) = Except.ok b := by
  cases b with
  | nil => rfl
  | cons c t => simp [sparsed_string]

/-- C1: for both supported formats (raw, elem size 1, and hex, elem size 2)
and every delimiter, a non-empty input of length n encodes to a string of
length exactly n * elem_size + (n - 1) * delimiter.length, and an empty (or
null) input encodes to the empty string regardless of format and delimiter. -/
theorem c1_output_length :
    (∀ (b d : List Nat), b ≠ [] →
      resultLength (sparsed_string (some b) 0 (some d))
          = some (b.length * 1 + (b.length - 1) * d.length) ∧
      resultLength (sparsed_string (some b) 1 (some d))
          = some (b.length * 2 + (b.length - 1) * d.length)) ∧
    (∀ (fmt : Nat) (dv : Option (List Nat)),
      sparsed_string (some []) fmt dv = Except.ok [] ∧
      sparsed_string none fmt dv = Except.ok []) := by
  constructor
  · intro b d hb
    constructor
    · rw [sparsed_string_raw b d hb]
      simp [resultLength, rawInterleave_length d b hb]
    · rw [sparsed_string_hex b d hb]
      simp [resultLength,
        genericPath_length sprintf02x 2 (fun _ => rfl) b d hb, Nat.mul_comm]
  · intro fmt dv
    exact ⟨by simp [sparsed_string], rfl⟩

/-- C1 witness: the invariant evaluated at the two-byte input [7, 7] with the
one-byte delimiter [44]: raw gives length 3, hex gives length 5. -/
theorem c1_output_length_witness :
    resultLength (sparsed_string (some [7, 7]) 0 (some [44])) = some 3 ∧
    resultLength (sparsed_string (some [7, 7]) 1 (some [44])) = some 5 :=
  c1_output_length.1 [7, 7] [44] (by decide)

theorem flatten_sprintf02x_length :
    ∀ b : List Nat, ((b.map sprintf02x).flatten).length = 2 * b.length := by
  intro b
  induction b with
  | nil => rfl
  | cons c t ih =>
    simp only [List.map_cons, List.flatten_cons, List.length_append, ih,
      List.length_cons, sprintf02x, List.length_cons, List.length_nil]
    ring_nf

/-- C2: encoding with format Hex and empty delimiter is the concatenation,
in input order, of the two-digit lowercase zero-padded hexadecimal rendering
of each byte (the model of sprintf with %02x), hence of length twice the
input length; in particular the bytes 0x00, 0xFF, 0x0A encode to 00ff0a. -/
theorem c2_hex_empty_delim :
    (∀ b : List Nat, (∀ x ∈ b, x < 256) →
      sparsed_string (some b) 1 (some []) = Except.ok ((b.map sprintf02x).flatten) ∧
      ((b.map sprintf02x).flatten).length = 2 * b.length) ∧
    sparsed_string (some [0x00, 0xFF, 0x0A]) 1 (some []) = Except.ok (strBytes "00ff0a") := by
  constructor
  · intro b hsmall
    refine ⟨?_, flatten_sprintf02x_length b⟩
    cases hb : b with
    | nil => rfl
    | cons c t =>
      rw [← hb, sparsed_string_hex b [] (by simp [hb]), genericPath_nil_delim]
      have : b.map (fun x => sprintf02x (x % 256)) = b.map sprintf02x := by
        refine List.map_congr_left ?_
        intro x hx
        rw [Nat.mod_eq_of_lt (hsmall x hx)]
      rw [this]
  · rfl

/-- C2 witness: the single byte 0xAB encodes under Hex with empty delimiter
to its two-digit rendering, of length 2. -/
theorem c2_hex_empty_delim_witness :
    sparsed_string (some [0xAB]) 1 (some []) = Except.ok (([0xAB].map sprintf02x).flatten) ∧
    (([0xAB].map sprintf02x).flatten).length = 2 * [0xAB].length :=
  c2_hex_empty_delim.1 [0xAB] (by decide)

/-- C3: encoding a non-empty input with format Raw and any delimiter yields
the input bytes with the delimiter inserted exactly once between every
adjacent pair — the intercalation of the delimiter with the singleton byte
groups — so there are length-1 insertions, none at either end, every byte
value is preserved exactly, and a single-byte input emits no delimiter. -/
theorem c3_raw_intercalate (b d : List Nat) (hb : b ≠ []) :
    sparsed_string (some b) 0 (some d)
      = Except.ok (List.intercalate d (b.map (fun x => [x]))) := by
  rw [sparsed_string_raw b d hb, rawInterleave_eq_intercalate d b]

/-- C3 witness: the bytes 65, 10 with the two-byte delimiter [45, 45]:
the encoder inserts the delimiter once, between the two bytes, preserving
the control character 10. -/
theorem c3_raw_intercalate_witness :
    sparsed_string (some [65, 10]) 0 (some [45, 45])
      = Except.ok (List.intercalate [45, 45] ([65, 10].map (fun x => [x]))) :=
  c3_raw_intercalate [65, 10] [45, 45] (by decide)

/-- C5 counterexample: the claim quantifies over every input byte sequence,
but on the empty input the encoder returns the empty string before the
format selector is ever examined: with the unsupported selector value 2 and
delimiter [44] the call succeeds with the empty string instead of failing. -/
theorem c5_counterexample_empty_input :
    (2 : Nat) ≠ 0 ∧ (2 : Nat) ≠ 1 ∧
    sparsed_string (some []) 2 (some [44]) = Except.ok [] :=
  ⟨by decide, by decide, rfl⟩

/-- C5 amended: for every NON-EMPTY input byte sequence and every delimiter
(null delimiters included), a format selector value that is neither raw (0)
nor hex (1) makes the encoder fail with the invalid_argument error, never
silently substituting a default format; on empty or null input the encoder
returns the empty string without examining the format. -/
theorem c5_invalid_format (b : List Nat) (dv : Option (List Nat)) (fmt : Nat)
    (hb : b ≠ []) (h0 : fmt ≠ 0) (h1 : fmt ≠ 1) :
    sparsed_string (some b) fmt dv
      = Except.error "unsupported result format for dmitigr::str::to_string(string_view, Byte_format, string_view)" := by
  simp [sparsed_string, hb, h0, h1]

/-- C5 witness: the one-byte input [1] with the unsupported selector 2 and a
null delimiter view fails with the invalid_argument error. -/
theorem c5_invalid_format_witness :
    sparsed_string (some [1]) 2 none
      = Except.error "unsupported result format for dmitigr::str::to_string(string_view, Byte_format, string_view)" :=
  c5_invalid_format [1] none 2 (by decide) (by decide) (by decide)

/-- C10: sparsed_string is defined on views that violate the non-null
precondition: an input view with null data yields the empty string for every
format and delimiter, and a delimiter view with null data behaves exactly
like the empty delimiter for every input and format. -/
theorem c10_null_views_total :
    (∀ (fmt : Nat) (dv : Option (List Nat)), sparsed_string none fmt dv = Except.ok []) ∧
    (∀ (b : List Nat) (fmt : Nat),
      sparsed_string (some b) fmt none = sparsed_string (some b) fmt (some [])) := by
  constructor
  · intro fmt dv
    rfl
  · intro b fmt
    rfl

/-- C7: when the underlying strftime conversion fails (it returns 0, the
empty buffer content), every time-formatting helper returns the empty
result instead of raising: the plain formatter, the ISO-8601 variant and
the microsecond variant (the latter for every timepoint). -/
theorem c7_failure_returns_empty :
    to_string_view [] = [] ∧ to_string_view_iso8601 [] = [] ∧
    ∀ tse_us : Nat, to_string_view_us [] tse_us = [] :=
  ⟨rfl, rfl, fun _ => rfl⟩

theorem rotate_last3_append (q : List Char) (x y z : Char) :
    rotate_last3 (q ++ [x, y, z]) = q ++ [z, x, y] := by
  have hq : (q ++ [x, y, z]).length = q.length + 3 := by simp
  rw [rotate_last3, hq, if_neg (by omega)]
  have h3 : q.length + 3 - 3 = q.length := by omega
  rw [h3, List.take_left, List.drop_left]
  rfl

/-- C8: on every strftime output of the successful shape — any date-time
prefix followed by the numeric UTC-offset rendering (sign and four digits)
and the colon appended by the fixed format string — the ISO-8601 variant
rotates the last three characters so that the offset field takes the form
sign, two hour digits, colon, two minute digits. -/
theorem c8_iso8601_offset_colon (p : List Char) (sgn d1 d2 d3 d4 : Char) :
    to_string_view_iso8601 (p ++ [sgn, d1, d2, d3, d4, ':'])
      = (p ++ [sgn, d1, d2]) ++ [':', d3, d4] := by
  have hne : (p ++ [sgn, d1, d2, d3, d4, ':']).length ≠ 0 := by simp
  rw [to_string_view_iso8601, to_string_view, if_pos hne]
  have hsplit : p ++ [sgn, d1, d2, d3, d4, ':']
      = (p ++ [sgn, d1, d2]) ++ [d3, d4, ':'] := by simp
  rw [hsplit, rotate_last3_append]

theorem printfLdGo_append :
    ∀ n : Nat, ∀ (fuel : Nat) (acc : List Char), n < fuel →
      printfLdGo fuel n acc = printfLdGo fuel n [] ++ acc := by
  intro n
  induction n using Nat.strong_induction_on with
  | _ n ih =>
    intro fuel acc hf
    cases fuel with
    | zero => omega
    | succ fuel =>
      by_cases h : n < 10
      · simp [printfLdGo, h]
      · have hd : n / 10 < n := Nat.div_lt_self (by omega) (by omega)
        have hf2 : n / 10 < fuel := by omega
        simp only [printfLdGo, if_neg h]
        rw [ih (n / 10) hd fuel _ hf2,
          ih (n / 10) hd fuel [Char.ofNat (48 + n % 10)] hf2]
        simp

theorem printfLdGo_fuel :
    ∀ n f g : Nat, n < f → n < g → printfLdGo f n [] = printfLdGo g n [] := by
  intro n
  induction n using Nat.strong_induction_on with
  | _ n ih =>
    intro f g hf hg
    cases f with
    | zero => omega
    | succ f =>
      cases g with
      | zero => omega
      | succ g =>
        by_cases h : n < 10
        · simp [printfLdGo, h]
        · have hd : n / 10 < n := Nat.div_lt_self (by omega) (by omega)
          simp only [printfLdGo, if_neg h]
          rw [printfLdGo_append (n / 10) f _ (by omega),
            printfLdGo_append (n / 10) g _ (by omega),
            ih (n / 10) hd f g (by omega) (by omega)]

theorem printfLd_lt10 (n : Nat) (h : n < 10) :
    printfLd n = [Char.ofNat (48 + n)] := by
  simp [printfLd, printfLdGo, h]

theorem printfLd_ge10 (n : Nat) (h : 10 ≤ n) :
    printfLd n = printfLd (n / 10) ++ [Char.ofNat (48 + n % 10)] := by
  have hd : n / 10 < n := Nat.div_lt_self (by omega) (by omega)
  simp only [printfLd, printfLdGo, if_neg (by omega : ¬n < 10)]
  rw [printfLdGo_append (n / 10) n _ (by omega),
    printfLdGo_fuel (n / 10) n (n / 10 + 1) (by omega) (by omega)]
  rfl

theorem digit_char_toNat (d : Nat) (h : d < 10) :
    (Char.ofNat (48 + d)).toNat = 48 + d := by
  interval_cases d <;> decide

theorem decodeDec_append_digit (xs : List Char) (c : Char) :
    decodeDec (xs ++ [c]) = 10 * decodeDec xs + (c.toNat - 48) := by
  simp [decodeDec, List.foldl_append]

theorem printfLd_spec :
    ∀ n : Nat, decodeDec (printfLd n) = n ∧ printfLd n ≠ [] ∧
      (printfLd n).all isDigitChar = true := by
  intro n
  induction n using Nat.strong_induction_on with
  | _ n ih =>
    by_cases h : n < 10
    · rw [printfLd_lt10 n h]
      refine ⟨?_, by simp, ?_⟩
      · simp [decodeDec, digit_char_toNat n h]
      · simp [List.all_cons, isDigitChar, digit_char_toNat n h]
        omega
    · have hd : n / 10 < n := Nat.div_lt_self (by omega) (by omega)
      obtain ⟨ihv, _, ihall⟩ := ih (n / 10) hd
      have hm : n % 10 < 10 := Nat.mod_lt _ (by omega)
      rw [printfLd_ge10 n (by omega)]
      refine ⟨?_, by simp, ?_⟩
      · rw [decodeDec_append_digit, ihv, digit_char_toNat _ hm]
        omega
      · simp [List.all_append, ihall, List.all_cons, isDigitChar,
          digit_char_toNat _ hm]
        omega

theorem printfLd_length_le :
    ∀ k : Nat, 1 ≤ k → ∀ n : Nat, n < 10 ^ k → (printfLd n).length ≤ k := by
  intro k
  induction k with
  | zero => omega
  | succ k ih =>
    intro _ n hn
    by_cases h : n < 10
    · rw [printfLd_lt10 n h]
      simp
    · have hk : 1 ≤ k := by
        rcases k with _ | k
        · norm_num at hn
          omega
        · omega
      have hdiv : n / 10 < 10 ^ k := by
        rw [Nat.div_lt_iff_lt_mul (by omega : (0 : Nat) < 10)]
        calc n < 10 ^ (k + 1) := hn
          _ = 10 ^ k * 10 := by ring
      have := ih hk (n / 10) hdiv
      rw [printfLd_ge10 n (by omega)]
      simp only [List.length_append, List.length_cons, List.length_nil]
      omega

theorem printfLd_length_ge :
    ∀ k n : Nat, 10 ^ k ≤ n → k + 1 ≤ (printfLd n).length := by
  intro k
  induction k with
  | zero =>
    intro n _
    have := List.length_pos.mpr (printfLd_spec n).2.1
    omega
  | succ k ih =>
    intro n hn
    have h10 : 10 ≤ n := by
      calc (10 : Nat) = 10 ^ 1 := (pow_one 10).symm
        _ ≤ 10 ^ (k + 1) := Nat.pow_le_pow_right (by omega) (by omega)
        _ ≤ n := hn
    have hdiv : 10 ^ k ≤ n / 10 := by
      rw [Nat.le_div_iff_mul_le (by omega : (0 : Nat) < 10)]
      calc 10 ^ k * 10 = 10 ^ (k + 1) := (pow_succ 10 k).symm
        _ ≤ n := hn
    have := ih (n / 10) hdiv
    rw [printfLd_ge10 n h10]
    simp only [List.length_append, List.length_cons, List.length_nil]
    omega

/-- C6 counterexample: with the successful date-time part of a concrete
instant and a timepoint whose microsecond component is 42, the microsecond
variant renders the fraction as the two characters 42 through %ld, not as
six zero-padded digits (000042): the output length is the date-time length
plus 3, not plus 7 as the claimed six-digit shape requires. -/
theorem c6_counterexample_two_digit_fraction :
    to_string_view_us "2023-06-01T12:00:00".data 42
        = "2023-06-01T12:00:00.42".data ∧
    ("2023-06-01T12:00:00.42".data).length
      ≠ "2023-06-01T12:00:00".data.length + 1 + 6 := by
  constructor
  · decide
  · decide

/-- C6 amended: for every timepoint on which the base date-time formatting
succeeds, the microsecond variant appends a dot followed by the decimal
rendering of the microsecond component WITHOUT zero padding: the digits are
a faithful unpadded decimal rendering of the component, and the fractional
part has exactly six digits only when the component is at least 100000. -/
theorem c6_us_fraction_unpadded (base : List Char) (tse_us : Nat)
    (hb : base ≠ []) :
    to_string_view_us base tse_us = base ++ '.' :: printfLd (tse_us % 1000000) ∧
    decodeDec (printfLd (tse_us % 1000000)) = tse_us % 1000000 ∧
    (printfLd (tse_us % 1000000)).all isDigitChar = true ∧
    ((printfLd (tse_us % 1000000)).length = 6 ↔ 100000 ≤ tse_us % 1000000) := by
  refine ⟨?_, (printfLd_spec _).1, (printfLd_spec _).2.2, ?_, ?_⟩
  · simp [to_string_view_us, to_string_view, hb]
  · intro h6
    by_contra hlt
    have := printfLd_length_le 5 (by omega) (tse_us % 1000000) (by norm_num; omega)
    omega
  · intro hge
    have := printfLd_length_le 6 (by omega) (tse_us % 1000000)
      (by norm_num [Nat.mod_lt])
    have := printfLd_length_ge 5 (tse_us % 1000000) (by norm_num; omega)
    omega

/-- C6 witness: at a concrete successful date-time part and the timepoint
1234 microseconds after the epoch, the variant appends dot and the digits
of 1234, whose rendering decodes back to 1234, consists of digits, and does
not have six digits (1234 is below 100000). -/
theorem c6_us_fraction_unpadded_witness :
    to_string_view_us "2026-01-01T00:00:00".data 1234
        = "2026-01-01T00:00:00".data ++ '.' :: printfLd (1234 % 1000000) ∧
    decodeDec (printfLd (1234 % 1000000)) = 1234 % 1000000 ∧
    (printfLd (1234 % 1000000)).all isDigitChar = true ∧
    ((printfLd (1234 % 1000000)).length = 6 ↔ 100000 ≤ 1234 % 1000000) :=
  c6_us_fraction_unpadded "2026-01-01T00:00:00".data 1234 (by decide)

theorem dedupFirstSpec_nil : dedupFirstSpec [] = [] := by
  simp [dedupFirstSpec]

theorem dedupFirstSpec_cons (c : Char) (rest : List Char) :
    dedupFirstSpec (c :: rest)
      = c :: dedupFirstSpec (rest.filter (fun x => x ≠ c)) := by
  simp [dedupFirstSpec]

theorem dedupPass_eq :
    ∀ (fuel : Nat) (s : List Char) (i : Nat), s.length - i ≤ fuel →
      dedupPass fuel s i = s.take i ++ dedupFirstSpec (s.drop i) := by
  intro fuel
  induction fuel with
  | zero =>
    intro s i h
    have hle : s.length ≤ i := by omega
    simp [dedupPass, List.take_of_length_le hle, List.drop_eq_nil_of_le hle,
      dedupFirstSpec_nil]
  | succ fuel ih =>
    intro s i h
    by_cases hi : i < s.length
    · simp only [dedupPass, dif_pos hi]
      have hlen_take : (s.take (i + 1)).length = i + 1 := by
        simp [List.length_take]
        omega
      have hflt := List.length_filter_le (fun c => decide (c ≠ s[i])) (s.drop (i + 1))
      have hdrop : (s.drop (i + 1)).length = s.length - (i + 1) := by
        simp [List.length_drop]
      rw [ih _ (i + 1) (by
        simp only [List.length_append, hlen_take]
        omega)]
      rw [List.take_left' hlen_take, List.drop_left' hlen_take]
      rw [List.drop_eq_getElem_cons hi, dedupFirstSpec_cons]
      have htakes : s.take (i + 1) = s.take i ++ [s[i]] := by
        rw [List.take_succ, List.getElem?_eq_getElem hi]
        rfl
      rw [htakes, List.append_assoc]
      rfl
    · have hle : s.length ≤ i := by omega
      simp [dedupPass, hi, List.take_of_length_le hle,
        List.drop_eq_nil_of_le hle, dedupFirstSpec_nil]

theorem eliminate_duplicates_eq_spec (s : List Char) :
    eliminate_duplicates s = dedupFirstSpec s := by
  rw [eliminate_duplicates, dedupPass_eq s.length s 0 (by omega)]
  simp

theorem dedupFirstSpec_sublist_aux :
    ∀ (n : Nat) (s : List Char), s.length ≤ n → (dedupFirstSpec s).Sublist s := by
  intro n
  induction n with
  | zero =>
    intro s hs
    have hnil : s = [] := List.length_eq_zero.mp (by omega)
    subst hnil
    simp [dedupFirstSpec_nil]
  | succ n ih =>
    intro s hs
    cases s with
    | nil => simp [dedupFirstSpec_nil]
    | cons c rest =>
      rw [dedupFirstSpec_cons]
      refine List.Sublist.cons₂ c ?_
      refine List.Sublist.trans (ih _ ?_) (List.filter_sublist rest)
      calc (rest.filter (fun x => x ≠ c)).length
          ≤ rest.length := List.length_filter_le _ _
        _ ≤ n := by
          simp only [List.length_cons] at hs
          omega

theorem dedupFirstSpec_sublist (s : List Char) :
    (dedupFirstSpec s).Sublist s :=
  dedupFirstSpec_sublist_aux s.length s le_rfl

theorem dedupFirstSpec_nodup_aux :
    ∀ (n : Nat) (s : List Char), s.length ≤ n → (dedupFirstSpec s).Nodup := by
  intro n
  induction n with
  | zero =>
    intro s hs
    have hnil : s = [] := List.length_eq_zero.mp (by omega)
    subst hnil
    simp [dedupFirstSpec_nil]
  | succ n ih =>
    intro s hs
    cases s with
    | nil => simp [dedupFirstSpec_nil]
    | cons c rest =>
      rw [dedupFirstSpec_cons, List.nodup_cons]
      constructor
      · intro hmem
        have hin := (dedupFirstSpec_sublist _).subset hmem
        rw [List.mem_filter] at hin
        simp at hin
      · refine ih _ ?_
        calc (rest.filter (fun x => x ≠ c)).length
            ≤ rest.length := List.length_filter_le _ _
          _ ≤ n := by
            simp only [List.length_cons] at hs
            omega

theorem dedupFirstSpec_nodup (s : List Char) : (dedupFirstSpec s).Nodup :=
  dedupFirstSpec_nodup_aux s.length s le_rfl

/-- C9: duplicate elimination computes exactly the keep-the-first-occurrence
function: it equals the specification recursion that keeps each character
and filters its later occurrences, its result has no duplicate characters
and is a subsequence of the input (so first-occurrence order and the
relative order of survivors are preserved), it maps aabbccabc to abc, and
it is total by construction. -/
theorem c9_eliminate_duplicates_first :
    (∀ s : List Char, eliminate_duplicates s = dedupFirstSpec s) ∧
    (∀ s : List Char, (eliminate_duplicates s).Sublist s) ∧
    (∀ s : List Char, (eliminate_duplicates s).Nodup) ∧
    eliminate_duplicates "aabbccabc".data = "abc".data := by
  refine ⟨eliminate_duplicates_eq_spec, ?_, ?_, by decide⟩
  · intro s
    rw [eliminate_duplicates_eq_spec]
    exact dedupFirstSpec_sublist s
  · intro s
    rw [eliminate_duplicates_eq_spec]
    exact dedupFirstSpec_nodup s

end DmitigrStr
